import Mathlib

/-!
Shallow embedding of `src/repo_cleaner.py` (PISI Repository Cleaner).

The script scans a directory for `*.pisi` archives, parses each filename
into package name / version / revision / pisi-version / architecture,
groups the parsed entries by package name, ranks each group by a
comparable version key, selects everything beyond the newest `count`
entries as redundant, and removes those files after interactive
confirmation.

Python strings are modelled via their character lists (`String.data`),
Python dicts (insertion ordered) as association lists, Python exceptions
as `Except`.  Every definition below is translated directly from the
corresponding lines of `src/repo_cleaner.py`, except `parse_version`,
which models the external `packaging.version.parse` library call.
-/

namespace RepoCleaner

/-- Python `s.split(c)` for a single-character separator `c`
(no maxsplit): always returns a non-empty list of segments. -/
def splitOnChar (c : Char) : List Char → List (List Char)
  | [] => [[]]
  | x :: xs =>
    match splitOnChar c xs with
    | [] => [[]]
    | h :: t => if x = c then [] :: h :: t else (x :: h) :: t

/-- Python `c.join(parts)` for a single-character separator. -/
def joinChar (c : Char) : List (List Char) → List Char
  | [] => []
  | [x] => x
  | x :: y :: t => x ++ c :: joinChar c (y :: t)

/-- Does the pattern occur at the start of the string? -/
def startsWithPat : List Char → List Char → Bool
  | [], _ => true
  | _ :: _, [] => false
  | p :: ps, c :: cs => p == c && startsWithPat ps cs

/-- Does the pattern occur anywhere in the string? -/
def hasPat (pat : List Char) : List Char → Bool
  | [] => startsWithPat pat []
  | c :: cs => startsWithPat pat (c :: cs) || hasPat pat cs

/-- The characters before the first occurrence of the pattern
(the whole string when the pattern does not occur): this is
Python `s.split(pat)[0]` for a non-empty pattern `pat`. -/
def takeUntilPat (pat : List Char) : List Char → List Char
  | [] => []
  | c :: cs => if startsWithPat pat (c :: cs) then [] else c :: takeUntilPat pat cs

/-- The archive extension `".pisi"` as a character list. -/
def extPat : List Char := ['.', 'p', 'i', 's', 'i']

/-- Line 99: `pisi_file.split('.pisi')[0]` — everything before the FIRST
occurrence of `".pisi"` in the filename. -/
def stripExtension (f : String) : String := ⟨takeUntilPat extPat f.data⟩

/-- Python `s.rsplit('-', 4)` unpacked into exactly five variables
(line 101).  Returns `none` when the string holds fewer than 4 dashes,
in which case the Python statement raises an uncaught `ValueError`. -/
def rsplitDash4 (s : List Char) : Option (List Char × List Char × List Char × List Char × List Char) :=
  match (splitOnChar '-' s).reverse with
  | arch :: pv :: rev :: ver :: r :: rest =>
      some (joinChar '-' ((r :: rest).reverse), ver, rev, pv, arch)
  | _ => none

/-- String-level wrapper of `rsplitDash4`. -/
def rsplitName (s : String) : Option (String × String × String × String × String) :=
  match rsplitDash4 s.data with
  | none => none
  | some (n, v, r, p, a) => some (⟨n⟩, ⟨v⟩, ⟨r⟩, ⟨p⟩, ⟨a⟩)

/-- Python `version.split('.')` (line 103). -/
def splitDots (s : String) : List String := (splitOnChar '.' s.data).map String.mk

/-- Python `'.'.join(version_tuple)` (lines 106 and 149). -/
def joinDots (l : List String) : String := ⟨joinChar '.' (l.map String.data)⟩

/-- Numeric value of a digit string. -/
def natOfDigits (l : List Char) : Nat := l.foldl (fun a c => a * 10 + (c.toNat - 48)) 0

/-- A non-empty, all-digit version segment. -/
def isNumSeg (l : List Char) : Bool := !l.isEmpty && l.all (·.isDigit)

/-- Models the external `packaging.version.parse` call (line 106),
restricted to plain dotted numeric release versions as used by PISI
archives: each dot-separated segment must be a non-empty digit string
and is compared by its numeric value.  Any other string is treated as a
parse failure (`packaging` raises `InvalidVersion`, caught by the
`except` block at line 122). -/
def parse_version (s : String) : Option (List Nat) :=
  let segs := splitOnChar '.' s.data
  if segs.all isNumSeg then some (segs.map natOfDigits) else none

/-- Three-way comparison of parsed release versions: componentwise
numeric comparison, the shorter list padded with zeros (so `1.2` and
`1.2.0` compare equal), as `packaging.version.Version` orders releases. -/
def vcmp : List Nat → List Nat → Ordering
  | [], ys => if ys.any (0 < ·) then .lt else .eq
  | x :: xs, [] => if 0 < x then .gt else vcmp xs []
  | x :: xs, y :: ys => if x < y then .lt else if y < x then .gt else vcmp xs ys

/-- One parsed archive occurrence of a package: the dict appended to
`versions` at line 114 (`path`, `version` tuple, `comparable_version`). -/
structure VersionEntry where
  path : String
  version : List String
  comparable_version : List Nat
deriving Repr, DecidableEq

/-- The per-package dict built at lines 112-119: `pisi_version`, `arch`
and the list of version entries. -/
structure Package where
  pisi_version : String
  arch : String
  versions : List VersionEntry
deriving Repr, DecidableEq

/-- The `packages` dict: insertion-ordered mapping from package name to
its `Package` record. -/
abbrev Packages := List (String × Package)

/-- Python `packages.get(name, default)`. -/
def dictGet : Packages → String → Option Package
  | [], _ => none
  | (k', v) :: rest, k => if k' = k then some v else dictGet rest k

/-- Python `packages.update({name: package})`: replaces the value in
place when the key exists (keeping its position), appends otherwise. -/
def dictSet : Packages → String → Package → Packages
  | [], k, v => [(k, v)]
  | (k', v') :: rest, k, v =>
      if k' = k then (k, v) :: rest else (k', v') :: dictSet rest k v

/-- One iteration of the `for path, pisi_file in pisi_files` loop of
`parse_packages` (lines 97-126).  A failing `rsplit` unpacking
(line 101, outside the `try`) is an uncaught `ValueError`, modelled as
`Except.error`; a failing `parse_version` (line 106, inside the `try`)
is logged and skipped, leaving the dict unchanged. -/
def processOne (acc : Packages) (file : String × String) : Except String Packages :=
  let path := file.1
  let pisi_file := file.2
  let stem := stripExtension pisi_file
  match rsplitName stem with
  | none => .error pisi_file
  | some (package_name, version, revision, pisi_version, arch) =>
    let version_tuple := splitDots version ++ [revision]
    match parse_version (joinDots version_tuple) with
    | none => .ok acc
    | some cv =>
      let versions := ((dictGet acc package_name).map Package.versions).getD []
      .ok (dictSet acc package_name
        ⟨pisi_version, arch, versions ++ [⟨path, version_tuple, cv⟩]⟩)

/-- The loop of `parse_packages` threaded over the scan list. -/
def parsePackagesAux : List (String × String) → Packages → Except String Packages
  | [], acc => .ok acc
  | f :: rest, acc =>
    match processOne acc f with
    | .ok acc' => parsePackagesAux rest acc'
    | .error e => .error e

/-- `parse_packages` (lines 64-128): builds the package dict from the
scan results; an uncaught exception aborts the whole run. -/
def parse_packages (pisi_files : List (String × String)) : Except String Packages :=
  parsePackagesAux pisi_files []

/-- Stable insertion used to model Python
`sorted(versions, key=comparable_version, reverse=True)` (line 145):
the new entry goes after every already-placed entry whose key is not
strictly smaller, so equal keys keep their original scan order. -/
def insertDesc (e : VersionEntry) : List VersionEntry → List VersionEntry
  | [] => [e]
  | x :: xs =>
    if vcmp x.comparable_version e.comparable_version = .lt then e :: x :: xs
    else x :: insertDesc e xs

/-- Insert the entries one by one, in scan order. -/
def sortDescAux : List VersionEntry → List VersionEntry → List VersionEntry
  | [], acc => acc
  | e :: rest, acc => sortDescAux rest (insertDesc e acc)

/-- Python `sorted(meta['versions'], key=lambda x: x.get('comparable_version'), reverse=True)`
(line 145): stable descending sort on the comparable version. -/
def sortDesc (l : List VersionEntry) : List VersionEntry := sortDescAux l []

/-- Lines 147-153: rebuild the archive filename of a redundant entry
from the stored fields.  Note that `pisi_version` and `arch` come from
the group record `meta`, not from the entry itself. -/
def reconstructName (name : String) (meta : Package) (v : VersionEntry) : String :=
  name ++ "-" ++ joinDots v.version.dropLast ++ "-" ++ (v.version.getLast?.getD "") ++
    "-" ++ meta.pisi_version ++ "-" ++ meta.arch ++ ".pisi"

/-- POSIX `os.path.join(path, file)` (line 154). -/
def pathJoin (a b : String) : String :=
  if b.data.head? = some '/' then b
  else if a.data = [] then b
  else if a.data.getLast? = some '/' then a ++ b
  else a ++ "/" ++ b

/-- `find_redundant` (lines 131-159): for every package, rank the
entries newest first, drop the newest `count` (`args.count`, passed
here explicitly), and rebuild a full path for each remaining entry. -/
def find_redundant (packages : Packages) (count : Nat) : List String :=
  packages.flatMap (fun p =>
    ((sortDesc p.2.versions).drop count).map
      (fun v => pathJoin v.path (reconstructName p.1 p.2 v)))

/-- `parse_packages` followed by `find_redundant`, as composed by the
main block (lines 223 and 228). -/
def discardOf (files : List (String × String)) (count : Nat) : Except String (List String) :=
  match parse_packages files with
  | .error e => .error e
  | .ok pkgs => .ok (find_redundant pkgs count)

/-- `remove_excess` (lines 162-173) over an explicit filesystem state
(the list of existing file paths).  `os.remove` succeeds when the path
exists; otherwise it raises an `OSError` which nothing catches, so the
loop aborts and the remaining paths stay untouched.  Returns the final
filesystem and whether the loop aborted. -/
def remove_excess (fs : List String) : List String → List String × Bool
  | [] => (fs, false)
  | p :: rest => if fs.contains p then remove_excess (fs.erase p) rest else (fs, true)

/-- `yes_no_prompt` (lines 176-192) over the list of stdin lines: an
empty line answers no, a line whose first character lowercases to `y`
or `n` answers accordingly, anything else re-prompts.  Returns the
answer and the unconsumed lines, or `none` when input runs out (the
real loop would block forever). -/
def yes_no_prompt : List String → Option (Bool × List String)
  | [] => none
  | a :: rest =>
    match a.data with
    | [] => some (false, rest)
    | c :: _ =>
      if c.toLower = 'y' then some (true, rest)
      else if c.toLower = 'n' then some (false, rest)
      else yes_no_prompt rest

/-- Does this stdin line count as an affirmative answer? -/
def isYes (a : String) : Bool :=
  match a.data with
  | [] => false
  | c :: _ => c.toLower == 'y'

/-- The ambient filesystem facts the main block consults. -/
structure Env where
  dirExists : Bool
  dirIsDir : Bool
  scanResults : List (String × String)
deriving Repr, DecidableEq

/-- Outcome of a run of the main block: a process exit with the files
that were removed, a crash on an uncaught exception, or blocking
forever on the prompt. -/
inductive MainOutcome where
  | exit (code : Int) (removed : List String)
  | crashed (msg : String)
  | blocked
deriving Repr, DecidableEq

/-- Lines 209-237 of the `__main__` block, after the `count == 0`
guard: the directory checks (exit -1 / -2), the scan (exit 1 when
empty), parsing (exit -3 when no package parsed, crash on an uncaught
parse exception), redundancy search (exit 0 when clean), and the
deletion prompt (deletion only on an affirmative answer; the script
then falls off the end, exiting 0). -/
def main_step (count : Nat) (env : Env) (ans : List String) : MainOutcome :=
  if !env.dirExists then .exit (-1) []
  else if !env.dirIsDir then .exit (-2) []
  else if env.scanResults.isEmpty then .exit 1 []
  else
    match parse_packages env.scanResults with
    | .error e => .crashed e
    | .ok pkgs =>
      if pkgs.isEmpty then .exit (-3) []
      else
        let redundant := find_redundant pkgs count
        if redundant.isEmpty then .exit 0 []
        else
          match yes_no_prompt ans with
          | none => .blocked
          | some (true, _) => .exit 0 redundant
          | some (false, _) => .exit 0 []

/-- The `__main__` block (lines 195-237): the `count == 0` safety
prompt (which consumes stdin lines before anything else), then the
pipeline of `main_step`. -/
def main_model (count : Nat) (env : Env) (answers : List String) : MainOutcome :=
  if count = 0 then
    match yes_no_prompt answers with
    | none => .blocked
    | some (false, _) => .exit 0 []
    | some (true, rest) => main_step count env rest
  else main_step count env answers

/-! ### Lemmas about the string primitives -/

theorem splitOnChar_ne_nil (c : Char) (l : List Char) : splitOnChar c l ≠ [] := by
  induction l with
  | nil => simp [splitOnChar]
  | cons x xs ih =>
    simp only [splitOnChar]
    rcases h : splitOnChar c xs with _ | ⟨hd, t⟩
    · exact absurd h ih
    · dsimp only
      split <;> simp

theorem splitOnChar_cons_eq (c x : Char) (xs : List Char) (hd : List Char)
    (t : List (List Char)) (h : splitOnChar c xs = hd :: t) :
    splitOnChar c (x :: xs) = if x = c then [] :: hd :: t else (x :: hd) :: t := by
  simp only [splitOnChar, h]

theorem joinChar_splitOnChar (c : Char) (l : List Char) :
    joinChar c (splitOnChar c l) = l := by
  induction l with
  | nil => simp [splitOnChar, joinChar]
  | cons x xs ih =>
    obtain ⟨hd, t, h⟩ := List.exists_cons_of_ne_nil (splitOnChar_ne_nil c xs)
    rw [h] at ih
    rw [splitOnChar_cons_eq c x xs hd t h]
    by_cases hx : x = c
    · simp only [if_pos hx, joinChar, hx]
      simpa using ih
    · simp only [if_neg hx]
      cases t with
      | nil => simpa [joinChar] using ih
      | cons y t' => simpa [joinChar] using ih

theorem splitOnChar_append_sep (c : Char) (a b : List Char) :
    splitOnChar c (a ++ c :: b) = splitOnChar c a ++ splitOnChar c b := by
  induction a with
  | nil =>
    obtain ⟨hd, t, h⟩ := List.exists_cons_of_ne_nil (splitOnChar_ne_nil c b)
    rw [List.nil_append, splitOnChar_cons_eq c c b hd t h, if_pos rfl, h]
    simp [splitOnChar]
  | cons x a' ih =>
    obtain ⟨hd, t, h⟩ := List.exists_cons_of_ne_nil (splitOnChar_ne_nil c a')
    obtain ⟨hd2, t2, h2⟩ :=
      List.exists_cons_of_ne_nil (splitOnChar_ne_nil c (a' ++ c :: b))
    rw [List.cons_append, splitOnChar_cons_eq c x _ hd2 t2 h2,
      splitOnChar_cons_eq c x a' hd t h]
    rw [ih, h] at h2
    cases h2
    split <;> simp

theorem splitOnChar_no_sep (c : Char) (l : List Char) (h : l.contains c = false) :
    splitOnChar c l = [l] := by
  induction l with
  | nil => simp [splitOnChar]
  | cons x xs ih =>
    simp only [List.contains_cons, Bool.or_eq_false_iff, beq_eq_false_iff_ne] at h
    rw [splitOnChar_cons_eq c x xs xs [] (ih h.2)]
    rw [if_neg (fun e => h.1 e.symm)]

theorem startsWithPat_self_append (p b : List Char) : startsWithPat p (p ++ b) = true := by
  induction p with
  | nil => simp [startsWithPat]
  | cons x xs ih => simp [startsWithPat, ih]

/-- The pattern `".pisi"` has no non-trivial self-overlap, so a string
that does not start with it still does not start with it after the
pattern (plus anything) is appended. -/
theorem startsWithPat_extPat_append (l b : List Char) (hne : l ≠ [])
    (h : startsWithPat extPat l = false) :
    startsWithPat extPat (l ++ extPat ++ b) = false := by
  match l with
  | [] => exact absurd rfl hne
  | [a] =>
    simp [extPat, startsWithPat]
  | [a, a2] =>
    simp [extPat, startsWithPat]
  | [a, a2, a3] =>
    simp [extPat, startsWithPat]
  | [a, a2, a3, a4] =>
    simp [extPat, startsWithPat]
  | a :: a2 :: a3 :: a4 :: a5 :: rest =>
    simp only [extPat, startsWithPat, List.cons_append, List.append_nil] at h ⊢
    simpa using h

theorem hasPat_cons (pat : List Char) (c : Char) (cs : List Char) :
    hasPat pat (c :: cs) = (startsWithPat pat (c :: cs) || hasPat pat cs) := rfl

theorem takeUntilPat_eq_nil (pat l : List Char) (hp : pat ≠ [])
    (h : startsWithPat pat l = true) : takeUntilPat pat l = [] := by
  cases l with
  | nil =>
    cases pat with
    | nil => exact absurd rfl hp
    | cons p ps => simp [startsWithPat] at h
  | cons c cs => simp [takeUntilPat, h]

/-- When `".pisi"` does not occur in `a`, everything before its first
occurrence in `a ++ ".pisi" ++ b` is exactly `a`. -/
theorem takeUntilPat_extPat_append (a b : List Char) (h : hasPat extPat a = false) :
    takeUntilPat extPat (a ++ extPat ++ b) = a := by
  induction a with
  | nil =>
    rw [List.nil_append]
    exact takeUntilPat_eq_nil extPat (extPat ++ b) (by simp [extPat])
      (startsWithPat_self_append extPat b)
  | cons x xs ih =>
    rw [hasPat_cons, Bool.or_eq_false_iff] at h
    have hsw := startsWithPat_extPat_append (x :: xs) b (by simp) h.1
    have ih2 := ih h.2
    simp only [List.cons_append, List.append_assoc] at hsw ih2 ⊢
    simp only [takeUntilPat]
    rw [if_neg (by simp [hsw]), ih2]

/-- Rebuilding a `String` from its character data is the identity. -/
theorem mk_data (s : String) : String.mk s.data = s := rfl

theorem data_mk (l : List Char) : (String.mk l).data = l := rfl

/-- `rsplit('-', 4)` recovers the five fields of a filename stem whose
last four fields are dash-free, with the name absorbing inner dashes. -/
theorem rsplitDash4_spec (name ver rev pv arch : List Char)
    (hv : ver.contains '-' = false) (hr : rev.contains '-' = false)
    (hp : pv.contains '-' = false) (ha : arch.contains '-' = false) :
    rsplitDash4 (name ++ '-' :: (ver ++ '-' :: (rev ++ '-' :: (pv ++ '-' :: arch)))) =
      some (name, ver, rev, pv, arch) := by
  have e1 : splitOnChar '-' (name ++ '-' :: (ver ++ '-' :: (rev ++ '-' :: (pv ++ '-' :: arch)))) =
      splitOnChar '-' name ++ [ver, rev, pv, arch] := by
    rw [splitOnChar_append_sep, splitOnChar_append_sep, splitOnChar_append_sep,
      splitOnChar_append_sep, splitOnChar_no_sep '-' ver hv,
      splitOnChar_no_sep '-' rev hr, splitOnChar_no_sep '-' pv hp,
      splitOnChar_no_sep '-' arch ha]
    simp
  have hne : (splitOnChar '-' name).reverse ≠ [] := by
    simp [List.reverse_eq_nil_iff, splitOnChar_ne_nil]
  obtain ⟨r, rest, hrev⟩ := List.exists_cons_of_ne_nil hne
  have hname : rest.reverse ++ [r] = splitOnChar '-' name := by
    calc rest.reverse ++ [r] = (r :: rest).reverse := (List.reverse_cons r rest).symm
    _ = (splitOnChar '-' name).reverse.reverse := by rw [hrev]
    _ = splitOnChar '-' name := List.reverse_reverse _
  rw [rsplitDash4, e1, List.reverse_append, hrev]
  simp only [List.reverse_cons, List.reverse_nil, List.nil_append, List.cons_append,
    List.append_assoc, List.singleton_append]
  rw [hname, joinChar_splitOnChar]

/-- String-level version of `rsplitDash4_spec`. -/
theorem rsplitName_spec (name ver rev pv arch : String)
    (hv : ver.data.contains '-' = false) (hr : rev.data.contains '-' = false)
    (hp : pv.data.contains '-' = false) (ha : arch.data.contains '-' = false) :
    rsplitName (name ++ "-" ++ ver ++ "-" ++ rev ++ "-" ++ pv ++ "-" ++ arch) =
      some (name, ver, rev, pv, arch) := by
  have hd : (name ++ "-" ++ ver ++ "-" ++ rev ++ "-" ++ pv ++ "-" ++ arch).data =
      name.data ++ '-' :: (ver.data ++ '-' :: (rev.data ++ '-' :: (pv.data ++ '-' :: arch.data))) := by
    simp [String.data_append]
  rw [rsplitName, hd, rsplitDash4_spec name.data ver.data rev.data pv.data arch.data hv hr hp ha]

/-- Splitting on dots and joining the segments back is the identity. -/
theorem joinDots_splitDots (s : String) : joinDots (splitDots s) = s := by
  rw [joinDots, splitDots, List.map_map]
  have : (String.data ∘ String.mk) = id := rfl
  rw [this, List.map_id, joinChar_splitOnChar]

/-! ### Order lemmas about the comparable version key -/

theorem vcmp_nil_right_ne_lt (l : List Nat) : vcmp l [] ≠ .lt := by
  induction l with
  | nil => simp [vcmp]
  | cons x xs ih =>
    simp only [vcmp]
    split
    · simp
    · exact ih

theorem vcmp_zeros_left (xs : List Nat) (h : xs.any (0 < ·) = false) :
    ∀ c, vcmp xs c = vcmp [] c := by
  induction xs with
  | nil => intro c; rfl
  | cons x xs ih =>
    simp only [List.any_cons, Bool.or_eq_false_iff, decide_eq_false_iff_not, not_lt,
      Nat.le_zero] at h
    intro c
    cases c with
    | nil =>
      simp only [vcmp, h.1, lt_irrefl, if_false]
      rw [ih (by simpa using h.2) []]
      simp [vcmp]
    | cons y ys =>
      simp only [vcmp, h.1, List.any_cons]
      by_cases hy : 0 < y
      · simp [hy]
      · simp only [if_neg hy, if_neg (by omega : ¬ y < 0)]
        rw [ih (by simpa using h.2) ys]
        simp [vcmp, show ¬ (0 < y) from hy]

theorem vcmp_zeros_right (c : List Nat) : ∀ xs, xs.any (0 < ·) = false →
    vcmp c xs = vcmp c [] := by
  induction c with
  | nil =>
    intro xs h
    simp [vcmp, h]
  | cons w ws ih =>
    intro xs h
    cases xs with
    | nil => rfl
    | cons y ys =>
      simp only [List.any_cons, Bool.or_eq_false_iff, decide_eq_false_iff_not, not_lt,
        Nat.le_zero] at h
      simp only [vcmp, h.1]
      rw [if_neg (by omega : ¬ w < 0)]
      by_cases hw : 0 < w
      · simp [hw]
      · simp only [if_neg (by omega : ¬ 0 < w), if_neg hw]
        exact ih ys (by simpa using h.2)

theorem vcmp_swap_nil (b : List Nat) : vcmp b [] = (vcmp [] b).swap := by
  induction b with
  | nil => rfl
  | cons y ys ih =>
    simp only [vcmp, List.any_cons]
    by_cases hy : 0 < y
    · simp [hy, Ordering.swap]
    · simp only [if_neg hy, decide_eq_true_eq, Bool.false_or,
        show (decide (0 < y)) = false from by simpa using hy]
      rw [ih]
      simp [vcmp]

theorem vcmp_swap (a : List Nat) : ∀ b, vcmp b a = (vcmp a b).swap := by
  induction a with
  | nil => exact vcmp_swap_nil
  | cons x xs ih =>
    intro b
    cases b with
    | nil =>
      rw [vcmp_swap_nil (x :: xs)]
      simp [Ordering.swap_swap]
    | cons y ys =>
      simp only [vcmp]
      rcases Nat.lt_trichotomy x y with h | h | h
      · simp [h, Nat.lt_asymm h, Nat.ne_of_lt h, Ordering.swap]
      · subst h
        simp only [lt_irrefl, if_false]
        exact ih ys
      · simp [h, Nat.lt_asymm h, Ordering.swap]

theorem vcmp_le_trans (a : List Nat) : ∀ b c, vcmp a b ≠ .lt → vcmp b c ≠ .lt →
    vcmp a c ≠ .lt := by
  induction a with
  | nil =>
    intro b c h1 h2
    have hb : b.any (0 < ·) = false := by
      by_contra hb
      simp only [Bool.not_eq_false] at hb
      exact h1 (by simp [vcmp, hb])
    rw [vcmp_zeros_left b hb c] at h2
    exact h2
  | cons x xs ih =>
    intro b c h1 h2
    cases c with
    | nil => exact vcmp_nil_right_ne_lt (x :: xs)
    | cons z zs =>
      cases b with
      | nil =>
        have hc : (z :: zs).any (0 < ·) = false := by
          by_contra hc
          simp only [Bool.not_eq_false] at hc
          exact h2 (by simp [vcmp, hc])
        rw [vcmp_zeros_right (x :: xs) (z :: zs) hc]
        exact vcmp_nil_right_ne_lt (x :: xs)
      | cons y ys =>
        simp only [vcmp] at h1 h2 ⊢
        have hxy : ¬ x < y := fun h => h1 (by simp [h])
        have hyz : ¬ y < z := fun h => h2 (by simp [h])
        rw [if_neg (by omega : ¬ x < z)]
        by_cases hzx : z < x
        · simp [hzx]
        · have hx : x = y := by omega
          have hy : y = z := by omega
          rw [if_neg hzx]
          subst hx
          subst hy
          simp only [lt_irrefl, if_false] at h1 h2
          exact ih ys zs h1 h2

theorem vcmp_congr_left (a : List Nat) : ∀ b, vcmp a b = .eq →
    ∀ c, vcmp a c = vcmp b c := by
  induction a with
  | nil =>
    intro b hb c
    have : b.any (0 < ·) = false := by
      by_contra h
      simp only [Bool.not_eq_false] at h
      simp [vcmp, h] at hb
    rw [vcmp_zeros_left b this c]
  | cons x xs ih =>
    intro b hb c
    cases b with
    | nil =>
      rw [vcmp_swap_nil (x :: xs)] at hb
      have hx : (x :: xs).any (0 < ·) = false := by
        by_contra h
        simp only [Bool.not_eq_false] at h
        simp [vcmp, h, Ordering.swap] at hb
      rw [vcmp_zeros_left (x :: xs) hx c]
    | cons y ys =>
      simp only [vcmp] at hb
      have hxy : x = y := by
        by_cases h : x < y
        · simp [h] at hb
        · by_cases h2 : y < x
          · simp [h, h2] at hb
          · omega
      subst hxy
      simp only [lt_irrefl, if_false] at hb
      cases c with
      | nil =>
        simp only [vcmp]
        split
        · rfl
        · exact ih ys hb []
      | cons z zs =>
        simp only [vcmp]
        by_cases h : x < z
        · simp [h]
        · by_cases h2 : z < x
          · simp [h, h2]
          · simp only [if_neg h, if_neg h2]
            exact ih ys hb zs

/-! ### The ranking is a stable descending sort -/

/-- Entry `a` ranks at least as new as entry `b`. -/
def entryGe (a b : VersionEntry) : Prop :=
  vcmp a.comparable_version b.comparable_version ≠ .lt

/-- Entry key equal (as versions) to `k`. -/
def keyEq (k : List Nat) (e : VersionEntry) : Bool :=
  decide (vcmp e.comparable_version k = Ordering.eq)

theorem mem_insertDesc (e z : VersionEntry) (l : List VersionEntry) :
    z ∈ insertDesc e l → z = e ∨ z ∈ l := by
  induction l with
  | nil => intro h; simpa [insertDesc] using h
  | cons x xs ih =>
    intro h
    by_cases hc : vcmp x.comparable_version e.comparable_version = .lt
    · rw [insertDesc, if_pos hc] at h
      rcases List.mem_cons.mp h with rfl | h2
      · exact Or.inl rfl
      · exact Or.inr h2
    · rw [insertDesc, if_neg hc] at h
      rcases List.mem_cons.mp h with rfl | h2
      · exact Or.inr (List.mem_cons_self _ _)
      · rcases ih h2 with h3 | h3
        · exact Or.inl h3
        · exact Or.inr (List.mem_cons_of_mem x h3)

theorem pairwise_insertDesc (e : VersionEntry) (l : List VersionEntry)
    (h : l.Pairwise entryGe) : (insertDesc e l).Pairwise entryGe := by
  induction l with
  | nil => simp [insertDesc, List.Pairwise.nil]
  | cons x xs ih =>
    rw [List.pairwise_cons] at h
    obtain ⟨hx, hxs⟩ := h
    simp only [insertDesc]
    split
    · rename_i hlt
      have hge : vcmp e.comparable_version x.comparable_version = .gt := by
        rw [vcmp_swap x.comparable_version e.comparable_version, hlt]
        rfl
      rw [List.pairwise_cons]
      refine ⟨?_, List.pairwise_cons.mpr ⟨hx, hxs⟩⟩
      intro y hy
      rcases List.mem_cons.mp hy with rfl | hy2
      · simp [entryGe, hge]
      · exact vcmp_le_trans _ _ _ (by simp [hge]) (hx y hy2)
    · rename_i hnlt
      rw [List.pairwise_cons]
      refine ⟨?_, ih hxs⟩
      intro z hz
      rcases mem_insertDesc e z xs hz with rfl | hz2
      · exact hnlt
      · exact hx z hz2

theorem pairwise_sortDescAux (l : List VersionEntry) :
    ∀ acc, acc.Pairwise entryGe → (sortDescAux l acc).Pairwise entryGe := by
  induction l with
  | nil => intro acc h; exact h
  | cons e rest ih =>
    intro acc h
    exact ih (insertDesc e acc) (pairwise_insertDesc e acc h)

theorem sortDesc_pairwise (l : List VersionEntry) : (sortDesc l).Pairwise entryGe :=
  pairwise_sortDescAux l [] List.Pairwise.nil

theorem filter_insertDesc (k : List Nat) (e : VersionEntry) (l : List VersionEntry)
    (h : l.Pairwise entryGe) :
    (insertDesc e l).filter (keyEq k) =
      if keyEq k e then l.filter (keyEq k) ++ [e] else l.filter (keyEq k) := by
  induction l with
  | nil =>
    by_cases hk : keyEq k e = true <;>
      simp [insertDesc, List.filter_cons, hk]
  | cons x xs ih =>
    rw [List.pairwise_cons] at h
    obtain ⟨hx, hxs⟩ := h
    by_cases hlt : vcmp x.comparable_version e.comparable_version = .lt
    · rw [insertDesc, if_pos hlt]
      by_cases hk : keyEq k e = true
      · have heq : vcmp e.comparable_version k = .eq := by
          simpa [keyEq] using hk
        have hkx : vcmp k x.comparable_version = .gt := by
          rw [← vcmp_congr_left e.comparable_version k heq x.comparable_version,
            vcmp_swap x.comparable_version e.comparable_version, hlt]
          rfl
        have hnil : (x :: xs).filter (keyEq k) = [] := by
          rw [List.filter_eq_nil_iff]
          intro a ha
          rcases List.mem_cons.mp ha with rfl | ha2
          · simp only [keyEq, decide_eq_true_eq]
            rw [vcmp_swap k a.comparable_version, hkx]
            decide
          · simp only [keyEq, decide_eq_true_eq]
            intro hak
            have h2 : vcmp a.comparable_version x.comparable_version =
                vcmp k x.comparable_version :=
              vcmp_congr_left a.comparable_version k hak x.comparable_version
            rw [hkx] at h2
            have hswap : vcmp x.comparable_version a.comparable_version = .lt := by
              rw [vcmp_swap a.comparable_version x.comparable_version, h2]
              rfl
            exact hx a ha2 hswap
        rw [if_pos hk, hnil, List.nil_append, List.filter_cons_of_pos hk, hnil]
      · have hk2 : keyEq k e = false := by simpa using hk
        rw [if_neg hk, List.filter_cons_of_neg (by simp [hk2])]
    · rw [insertDesc, if_neg hlt]
      simp only [List.filter_cons, ih hxs]
      rcases Bool.eq_false_or_eq_true (keyEq k x) with hqx | hqx <;>
        rcases Bool.eq_false_or_eq_true (keyEq k e) with hk | hk <;>
        simp [hqx, hk]

theorem filter_sortDescAux (k : List Nat) (l : List VersionEntry) :
    ∀ acc, acc.Pairwise entryGe →
      (sortDescAux l acc).filter (keyEq k) =
        acc.filter (keyEq k) ++ l.filter (keyEq k) := by
  induction l with
  | nil => intro acc h; simp [sortDescAux]
  | cons e rest ih =>
    intro acc h
    simp only [sortDescAux]
    rw [ih (insertDesc e acc) (pairwise_insertDesc e acc h),
      filter_insertDesc k e acc h, List.filter_cons]
    by_cases hk : keyEq k e = true
    · rw [if_pos hk, if_pos hk]
      simp
    · have hk2 : keyEq k e = false := by simpa using hk
      rw [if_neg hk, if_neg (by simp [hk2])]

/-- Entries whose key compares equal to any fixed key keep their scan
order through the ranking: the sort is stable. -/
theorem sortDesc_stable (l : List VersionEntry) (k : List Nat) :
    (sortDesc l).filter (keyEq k) = l.filter (keyEq k) := by
  rw [sortDesc, filter_sortDescAux k l [] List.Pairwise.nil]
  simp

theorem length_insertDesc (e : VersionEntry) (l : List VersionEntry) :
    (insertDesc e l).length = l.length + 1 := by
  induction l with
  | nil => rfl
  | cons x xs ih =>
    simp only [insertDesc]
    split
    · simp
    · simp [ih]

theorem length_sortDescAux (l : List VersionEntry) :
    ∀ acc, (sortDescAux l acc).length = acc.length + l.length := by
  induction l with
  | nil => intro acc; simp [sortDescAux]
  | cons e rest ih =>
    intro acc
    simp only [sortDescAux, List.length_cons]
    rw [ih (insertDesc e acc), length_insertDesc]
    omega

theorem length_sortDesc (l : List VersionEntry) : (sortDesc l).length = l.length := by
  rw [sortDesc, length_sortDescAux l []]
  simp

/-! ### Dict, pipeline and prompt lemmas -/

theorem dictGet_dictSet_self (d : Packages) (k : String) (v : Package) :
    dictGet (dictSet d k v) k = some v := by
  induction d with
  | nil => simp [dictGet, dictSet]
  | cons p rest ih =>
    obtain ⟨k', v'⟩ := p
    by_cases h : k' = k
    · rw [dictSet, if_pos h, dictGet, if_pos rfl]
    · rw [dictSet, if_neg h, dictGet, if_neg h, ih]

theorem parsePackagesAux_append (l₁ l₂ : List (String × String)) :
    ∀ acc, parsePackagesAux (l₁ ++ l₂) acc =
      match parsePackagesAux l₁ acc with
      | .ok acc' => parsePackagesAux l₂ acc'
      | .error e => .error e := by
  induction l₁ with
  | nil => intro acc; rfl
  | cons f rest ih =>
    intro acc
    rw [List.cons_append, parsePackagesAux, parsePackagesAux]
    cases processOne acc f with
    | ok acc' => exact ih acc'
    | error e => rfl

/-- A `true` answer can only come from a consumed line whose first
character lowercases to `y`, and the unconsumed lines are among the
given ones. -/
theorem yes_no_prompt_spec (ans : List String) (b : Bool) (rest : List String)
    (h : yes_no_prompt ans = some (b, rest)) :
    (b = true → ∃ a ∈ ans, isYes a = true) ∧ ∀ x ∈ rest, x ∈ ans := by
  induction ans with
  | nil => simp [yes_no_prompt] at h
  | cons a t ih =>
    rw [yes_no_prompt] at h
    rcases hd : a.data with _ | ⟨c, cs⟩
    · rw [hd] at h
      simp only [Option.some.injEq, Prod.mk.injEq] at h
      obtain ⟨hb, hr⟩ := h
      subst hb
      subst hr
      exact ⟨by simp, fun x hx => List.mem_cons_of_mem a hx⟩
    · rw [hd] at h
      dsimp only at h
      by_cases hy : c.toLower = 'y'
      · rw [if_pos hy] at h
        simp only [Option.some.injEq, Prod.mk.injEq] at h
        obtain ⟨hb, hr⟩ := h
        subst hb
        subst hr
        refine ⟨fun _ => ⟨a, List.mem_cons_self a t, ?_⟩, fun x hx => List.mem_cons_of_mem a hx⟩
        simp [isYes, hd, hy]
      · rw [if_neg hy] at h
        by_cases hn : c.toLower = 'n'
        · rw [if_pos hn] at h
          simp only [Option.some.injEq, Prod.mk.injEq] at h
          obtain ⟨hb, hr⟩ := h
          subst hb
          subst hr
          exact ⟨by simp, fun x hx => List.mem_cons_of_mem a hx⟩
        · rw [if_neg hn] at h
          obtain ⟨h1, h2⟩ := ih h
          exact ⟨fun hb => (h1 hb).elim (fun x hx => ⟨x, List.mem_cons_of_mem a hx.1, hx.2⟩),
            fun x hx => List.mem_cons_of_mem a (h2 x hx)⟩

/-! ### Round-trip helpers -/

theorem stripExtension_append (stem : String) (h : hasPat extPat stem.data = false) :
    stripExtension (stem ++ ".pisi") = stem := by
  rw [stripExtension,
    show (stem ++ ".pisi").data = stem.data ++ extPat ++ [] from by
      simp [String.data_append, extPat],
    takeUntilPat_extPat_append stem.data [] h]

/-- The filename stem `name-ver-rev-pv-arch` as assembled by the
repository convention. -/
def mkStem (name ver rev pv arch : String) : String :=
  name ++ "-" ++ ver ++ "-" ++ rev ++ "-" ++ pv ++ "-" ++ arch

/-! ### Claims -/

/-- C1.  The spec requires a filename with fewer than 4 dashes to fail
cleanly with a recovered `MalformedVersion` (logged and skipped), with
every other entry of the scan still parsed.  The code instead raises an
uncaught `ValueError` at the `rsplit` unpacking (line 101, outside the
`try` block that only guards `parse_version`), aborting the whole run:
on a scan holding a good entry, the malformed `bad-file.pisi`, and a
second good entry, parsing stops with the error and the later entry is
lost, while the same scan without the malformed name parses fully. -/
theorem claim_C1_code_divergence :
    parse_packages
        [("d", "good-1.0-1-p2-x86_64.pisi"), ("d", "bad-file.pisi"),
          ("d", "other-2.0-1-p2-x86_64.pisi")] = .error "bad-file.pisi" ∧
    parse_packages
        [("d", "good-1.0-1-p2-x86_64.pisi"), ("d", "other-2.0-1-p2-x86_64.pisi")] =
      .ok [("good", ⟨"p2", "x86_64", [⟨"d", ["1", "0", "1"], [1, 0, 1]⟩]⟩),
        ("other", ⟨"p2", "x86_64", [⟨"d", ["2", "0", "1"], [2, 0, 1]⟩]⟩)] :=
  ⟨rfl, rfl⟩

/-- C2 counterexample.  Two entries of package `foo` with different
architectures: the discarded entry was scanned as
`foo-1.0-1-p2-x86_64.pisi`, but the reconstruction uses the group's
last-written `arch` (`i686`), so the rebuilt path differs byte-for-byte
from the original filename's path. -/
theorem claim_C2_counterexample :
    discardOf [("d", "foo-1.0-1-p2-x86_64.pisi"), ("d", "foo-2.0-1-p2-i686.pisi")] 1 =
      .ok ["d/foo-1.0-1-p2-i686.pisi"] ∧
    pathJoin "d" "foo-1.0-1-p2-x86_64.pisi" = "d/foo-1.0-1-p2-x86_64.pisi" ∧
    ("d/foo-1.0-1-p2-i686.pisi" : String) ≠ "d/foo-1.0-1-p2-x86_64.pisi" :=
  ⟨rfl, rfl, by decide⟩

/-- C2 (amended).  For every well-formed filename
`name-ver-rev-pv-arch.pisi` (dash-free trailing fields, no early
`".pisi"` occurrence, numeric version), discard-list construction on a
scan in which the entry's `pisi_version` and `arch` are the group's
stored values (here: the package's sole entry) rebuilds exactly the
original path: the reconstruction is byte-for-byte the input
filename. -/
theorem claim_C2_roundtrip (path name ver rev pv arch : String) (cv : List Nat)
    (hpat : hasPat extPat (mkStem name ver rev pv arch).data = false)
    (hv : ver.data.contains '-' = false) (hr : rev.data.contains '-' = false)
    (hp : pv.data.contains '-' = false) (ha : arch.data.contains '-' = false)
    (hver : parse_version (joinDots (splitDots ver ++ [rev])) = some cv) :
    discardOf [(path, mkStem name ver rev pv arch ++ ".pisi")] 0 =
      .ok [pathJoin path (mkStem name ver rev pv arch ++ ".pisi")] := by
  have hstrip : stripExtension (mkStem name ver rev pv arch ++ ".pisi") =
      mkStem name ver rev pv arch := stripExtension_append _ hpat
  have hsplit : rsplitName (mkStem name ver rev pv arch) =
      some (name, ver, rev, pv, arch) := rsplitName_spec name ver rev pv arch hv hr hp ha
  have hproc : processOne [] (path, mkStem name ver rev pv arch ++ ".pisi") =
      .ok [(name, ⟨pv, arch, [⟨path, splitDots ver ++ [rev], cv⟩]⟩)] := by
    simp only [processOne, hstrip, hsplit, hver, dictGet, dictSet]
    rfl
  have hpp : parse_packages [(path, mkStem name ver rev pv arch ++ ".pisi")] =
      .ok [(name, ⟨pv, arch, [⟨path, splitDots ver ++ [rev], cv⟩]⟩)] := by
    rw [parse_packages, parsePackagesAux, hproc]
    rfl
  have hrecon : reconstructName name ⟨pv, arch, [⟨path, splitDots ver ++ [rev], cv⟩]⟩
      ⟨path, splitDots ver ++ [rev], cv⟩ = mkStem name ver rev pv arch ++ ".pisi" := by
    rw [reconstructName]
    simp only [List.dropLast_concat, List.getLast?_concat, Option.getD_some]
    rw [joinDots_splitDots]
    rfl
  rw [discardOf, hpp]
  dsimp only
  rw [show find_redundant [(name, ⟨pv, arch, [⟨path, splitDots ver ++ [rev], cv⟩]⟩)] 0 =
      [pathJoin path (reconstructName name ⟨pv, arch, [⟨path, splitDots ver ++ [rev], cv⟩]⟩
        ⟨path, splitDots ver ++ [rev], cv⟩)] from rfl]
  rw [hrecon]

/-- C2 witness: a concrete well-formed filename (with a dash inside the
package name) for which the amended round trip holds. -/
theorem claim_C2_roundtrip_witness :
    discardOf [("r/f", mkStem "fire-fox" "70.0" "1" "p2" "x86_64" ++ ".pisi")] 0 =
      .ok [pathJoin "r/f" (mkStem "fire-fox" "70.0" "1" "p2" "x86_64" ++ ".pisi")] :=
  claim_C2_roundtrip "r/f" "fire-fox" "70.0" "1" "p2" "x86_64" [70, 0, 1]
    (by decide) (by decide) (by decide) (by decide) (by decide) (by decide)

/-- C3.  For a package scanned with versions 1.2.0, 1.10.0 and 1.9.0
(all revision 1), ranking newest-first yields 1.10.0, then 1.9.0, then
1.2.0, because numeric segments compare by numeric value: the
comparable key of 1.9.0-1 is strictly below that of 1.10.0-1, and that
of 1.2.0-1 strictly below that of 1.9.0-1. -/
theorem claim_C3_numeric_ordering :
    discardOf [("r", "pkg-1.2.0-1-p2-x86_64.pisi"), ("r", "pkg-1.10.0-1-p2-x86_64.pisi"),
        ("r", "pkg-1.9.0-1-p2-x86_64.pisi")] 0 =
      .ok ["r/pkg-1.10.0-1-p2-x86_64.pisi", "r/pkg-1.9.0-1-p2-x86_64.pisi",
        "r/pkg-1.2.0-1-p2-x86_64.pisi"] ∧
    vcmp [1, 9, 0, 1] [1, 10, 0, 1] = .lt ∧
    vcmp [1, 2, 0, 1] [1, 9, 0, 1] = .lt :=
  ⟨rfl, rfl, rfl⟩

/-- C4.  Per package, the discard list is exactly the ranked
(newest-first) entries at index at least `count`, so it holds
`versions.length - count` entries; a 5-version group with count 3
discards exactly the 2 oldest, and count 0 discards all 5. -/
theorem claim_C4_retention_drop :
    (∀ (name : String) (meta : Package) (count : Nat),
      find_redundant [(name, meta)] count =
        ((sortDesc meta.versions).drop count).map
          (fun v => pathJoin v.path (reconstructName name meta v))) ∧
    (∀ (name : String) (meta : Package) (count : Nat),
      (find_redundant [(name, meta)] count).length = meta.versions.length - count) ∧
    discardOf [("r", "pkg-1.0-1-p2-x86_64.pisi"), ("r", "pkg-2.0-1-p2-x86_64.pisi"),
        ("r", "pkg-3.0-1-p2-x86_64.pisi"), ("r", "pkg-4.0-1-p2-x86_64.pisi"),
        ("r", "pkg-5.0-1-p2-x86_64.pisi")] 3 =
      .ok ["r/pkg-2.0-1-p2-x86_64.pisi", "r/pkg-1.0-1-p2-x86_64.pisi"] ∧
    discardOf [("r", "pkg-1.0-1-p2-x86_64.pisi"), ("r", "pkg-2.0-1-p2-x86_64.pisi"),
        ("r", "pkg-3.0-1-p2-x86_64.pisi"), ("r", "pkg-4.0-1-p2-x86_64.pisi"),
        ("r", "pkg-5.0-1-p2-x86_64.pisi")] 0 =
      .ok ["r/pkg-5.0-1-p2-x86_64.pisi", "r/pkg-4.0-1-p2-x86_64.pisi",
        "r/pkg-3.0-1-p2-x86_64.pisi", "r/pkg-2.0-1-p2-x86_64.pisi",
        "r/pkg-1.0-1-p2-x86_64.pisi"] := by
  refine ⟨?_, ?_, rfl, rfl⟩
  · intro name meta count
    simp [find_redundant]
  · intro name meta count
    simp [find_redundant, length_sortDesc]

/-- C5.  Grouping overwrites `pisi_version` and `arch` with the values
of every processed entry of the package: one loop step stores the new
entry's `pisi_version`/`arch` on the group record no matter what was
there, dict update makes that record the one retrieved for the package,
and on a two-entry scan of `foo` the stored values are those of the
last-scanned entry (`p3`/`i686`), not the first. -/
theorem claim_C5_last_write_wins :
    (∀ (d : Packages) (path fname name ver rev pv arch : String) (cv : List Nat),
      rsplitName (stripExtension fname) = some (name, ver, rev, pv, arch) →
      parse_version (joinDots (splitDots ver ++ [rev])) = some cv →
      processOne d (path, fname) = .ok (dictSet d name
        ⟨pv, arch, ((dictGet d name).map Package.versions).getD [] ++
          [⟨path, splitDots ver ++ [rev], cv⟩]⟩)) ∧
    (∀ (d : Packages) (name : String) (P : Package),
      dictGet (dictSet d name P) name = some P) ∧
    parse_packages [("d", "foo-1.0-1-p2-x86_64.pisi"), ("d", "foo-2.0-1-p3-i686.pisi")] =
      .ok [("foo", ⟨"p3", "i686",
        [⟨"d", ["1", "0", "1"], [1, 0, 1]⟩, ⟨"d", ["2", "0", "1"], [2, 0, 1]⟩]⟩)] := by
  refine ⟨?_, dictGet_dictSet_self, rfl⟩
  intro d path fname name ver rev pv arch cv h1 h2
  simp only [processOne, h1, h2]

/-- C5 witness: one step over a dict already holding `foo` with
`p2`/`x86_64` stores `p3`/`i686` instead and appends the entry. -/
theorem claim_C5_last_write_wins_witness :
    processOne [("foo", ⟨"p2", "x86_64", [⟨"d", ["1", "0", "1"], [1, 0, 1]⟩]⟩)]
        ("d", "foo-2.0-1-p3-i686.pisi") =
      .ok (dictSet [("foo", ⟨"p2", "x86_64", [⟨"d", ["1", "0", "1"], [1, 0, 1]⟩]⟩)] "foo"
        ⟨"p3", "i686",
          ((dictGet [("foo", ⟨"p2", "x86_64", [⟨"d", ["1", "0", "1"], [1, 0, 1]⟩]⟩)]
            "foo").map Package.versions).getD [] ++ [⟨"d", ["2", "0", "1"], [2, 0, 1]⟩]⟩) :=
  claim_C5_last_write_wins.1 [("foo", ⟨"p2", "x86_64", [⟨"d", ["1", "0", "1"], [1, 0, 1]⟩]⟩)]
    "d" "foo-2.0-1-p3-i686.pisi" "foo" "2.0" "1" "p3" "i686" [2, 0, 1] rfl rfl

/-- C6.  The per-group ranking is sorted newest-first (each entry's key
is at least every later entry's key), it is stable (entries with any
fixed key keep their scan order), and discard selection is a pure
function, so running it twice on the same package map yields the same
discard list. -/
theorem claim_C6_stable_deterministic :
    (∀ l : List VersionEntry, (sortDesc l).Pairwise entryGe) ∧
    (∀ (l : List VersionEntry) (k : List Nat),
      (sortDesc l).filter (keyEq k) = l.filter (keyEq k)) ∧
    (∀ (pkgs : Packages) (count : Nat),
      find_redundant pkgs count = find_redundant pkgs count) :=
  ⟨sortDesc_pairwise, sortDesc_stable, fun _ _ => rfl⟩

/-- C7 counterexample.  Deleting the discard list `[a, b, c]` on a
filesystem holding only `a` and `c`: the failure on `b` aborts the
loop, so `c` — although on the discard list and present — is never
removed, contradicting the claim that a failure does not abort the
removal of the remaining files. -/
theorem claim_C7_counterexample :
    remove_excess ["a", "c"] ["a", "b", "c"] = (["c"], true) := rfl

/-- C7 (amended).  A failure removing a file is NOT caught: the
uncaught `OSError` aborts the deletion loop immediately, leaving every
remaining file untouched (files removed before the failure stay
removed); when every listed file exists, no abort occurs. -/
theorem claim_C7_abort_on_failure :
    (∀ (fs : List String) (p : String) (rest : List String),
      fs.contains p = false → remove_excess fs (p :: rest) = (fs, true)) ∧
    (∀ (fs old : List String), old.Nodup → (∀ p ∈ old, p ∈ fs) →
      (remove_excess fs old).2 = false) := by
  constructor
  · intro fs p rest h
    rw [remove_excess, if_neg (by simpa using h)]
  · intro fs old
    induction old generalizing fs with
    | nil => intro _ _; rfl
    | cons p rest ih =>
      intro hnd hmem
      rw [List.nodup_cons] at hnd
      rw [remove_excess,
        if_pos (by simpa using hmem p (List.mem_cons_self p rest))]
      refine ih (fs.erase p) hnd.2 ?_
      intro q hq
      refine (List.mem_erase_of_ne ?_).mpr (hmem q (List.mem_cons_of_mem p hq))
      intro hqp
      exact hnd.1 (hqp ▸ hq)

/-- C7 witness: a missing first file aborts with the filesystem
untouched; the all-present case completes without aborting. -/
theorem claim_C7_abort_on_failure_witness :
    remove_excess ["a", "c"] ["b", "c"] = (["a", "c"], true) ∧
    (remove_excess ["a", "c"] ["a", "c"]).2 = false :=
  ⟨claim_C7_abort_on_failure.1 ["a", "c"] "b" ["c"] (by decide),
    claim_C7_abort_on_failure.2 ["a", "c"] ["a", "c"] (by decide) (by decide)⟩

/-- C8.  The process exit codes: -1 when the directory does not exist,
-2 when the path is not a directory, 1 when no `.pisi` file is found,
-3 when no package could be parsed from the found archives, 0 when
there is nothing redundant, and 0 on a completed (confirmed) removal
run.  (Stated for `count ≠ 0`; `count = 0` first consumes the safety
prompt and then behaves identically.) -/
theorem claim_C8_exit_codes :
    (∀ (c : Nat) (env : Env) (ans : List String), c ≠ 0 → env.dirExists = false →
      main_model c env ans = .exit (-1) []) ∧
    (∀ (c : Nat) (env : Env) (ans : List String), c ≠ 0 → env.dirExists = true →
      env.dirIsDir = false → main_model c env ans = .exit (-2) []) ∧
    (∀ (c : Nat) (env : Env) (ans : List String), c ≠ 0 → env.dirExists = true →
      env.dirIsDir = true → env.scanResults = [] → main_model c env ans = .exit 1 []) ∧
    (∀ (c : Nat) (env : Env) (ans : List String), c ≠ 0 → env.dirExists = true →
      env.dirIsDir = true → env.scanResults ≠ [] →
      parse_packages env.scanResults = .ok [] → main_model c env ans = .exit (-3) []) ∧
    (∀ (c : Nat) (env : Env) (ans : List String) (pkgs : Packages), c ≠ 0 →
      env.dirExists = true → env.dirIsDir = true → env.scanResults ≠ [] →
      parse_packages env.scanResults = .ok pkgs → pkgs ≠ [] →
      find_redundant pkgs c = [] → main_model c env ans = .exit 0 []) ∧
    (∀ (c : Nat) (env : Env) (ans rest : List String) (pkgs : Packages), c ≠ 0 →
      env.dirExists = true → env.dirIsDir = true → env.scanResults ≠ [] →
      parse_packages env.scanResults = .ok pkgs → pkgs ≠ [] →
      find_redundant pkgs c ≠ [] → yes_no_prompt ans = some (true, rest) →
      main_model c env ans = .exit 0 (find_redundant pkgs c)) := by
  refine ⟨?_, ?_, ?_, ?_, ?_, ?_⟩
  · intro c env ans hc h1
    simp [main_model, main_step, hc, h1]
  · intro c env ans hc h1 h2
    simp [main_model, main_step, hc, h1, h2]
  · intro c env ans hc h1 h2 h3
    simp [main_model, main_step, hc, h1, h2, h3]
  · intro c env ans hc h1 h2 h3 h4
    simp [main_model, main_step, hc, h1, h2, h3, h4]
  · intro c env ans pkgs hc h1 h2 h3 h4 h5 h6
    simp [main_model, main_step, hc, h1, h2, h3, h4, h5, h6]
  · intro c env ans rest pkgs hc h1 h2 h3 h4 h5 h6 h7
    simp [main_model, main_step, hc, h1, h2, h3, h4, h5, h6, h7]

/-- C8 witness: each exit code realized on a concrete run. -/
theorem claim_C8_exit_codes_witness :
    main_model 1 ⟨false, true, []⟩ [] = .exit (-1) [] ∧
    main_model 1 ⟨true, false, []⟩ [] = .exit (-2) [] ∧
    main_model 1 ⟨true, true, []⟩ [] = .exit 1 [] ∧
    main_model 1 ⟨true, true, [("d", "foo-abc-1-p2-x86_64.pisi")]⟩ [] = .exit (-3) [] ∧
    main_model 1 ⟨true, true, [("d", "foo-1.0-1-p2-x86_64.pisi")]⟩ [] = .exit 0 [] ∧
    main_model 1 ⟨true, true, [("d", "foo-1.0-1-p2-x86_64.pisi"),
        ("d", "foo-2.0-1-p2-x86_64.pisi")]⟩ ["y"] =
      .exit 0 ["d/foo-1.0-1-p2-x86_64.pisi"] := by
  refine ⟨claim_C8_exit_codes.1 1 ⟨false, true, []⟩ [] (by decide) rfl,
    claim_C8_exit_codes.2.1 1 ⟨true, false, []⟩ [] (by decide) rfl rfl,
    claim_C8_exit_codes.2.2.1 1 ⟨true, true, []⟩ [] (by decide) rfl rfl rfl,
    claim_C8_exit_codes.2.2.2.1 1 ⟨true, true, [("d", "foo-abc-1-p2-x86_64.pisi")]⟩ []
      (by decide) rfl rfl (by simp) rfl,
    claim_C8_exit_codes.2.2.2.2.1 1 ⟨true, true, [("d", "foo-1.0-1-p2-x86_64.pisi")]⟩ []
      [("foo", ⟨"p2", "x86_64", [⟨"d", ["1", "0", "1"], [1, 0, 1]⟩]⟩)]
      (by decide) rfl rfl (by simp) rfl (by simp) rfl, ?_⟩
  have h := claim_C8_exit_codes.2.2.2.2.2 1
    ⟨true, true, [("d", "foo-1.0-1-p2-x86_64.pisi"), ("d", "foo-2.0-1-p2-x86_64.pisi")]⟩
    ["y"] []
    [("foo", ⟨"p2", "x86_64",
      [⟨"d", ["1", "0", "1"], [1, 0, 1]⟩, ⟨"d", ["2", "0", "1"], [2, 0, 1]⟩]⟩)]
    (by decide) rfl rfl (by simp) rfl (by simp) (by decide) rfl
  exact h

/-- Without an affirmative stdin line, `main_step` never removes
anything. -/
theorem main_step_no_removal (count : Nat) (env : Env) (ans : List String)
    (code : Int) (removed : List String) (hno : ∀ a ∈ ans, isYes a = false)
    (h : main_step count env ans = .exit code removed) : removed = [] := by
  rw [main_step] at h
  split at h
  · cases h; rfl
  · split at h
    · cases h; rfl
    · split at h
      · cases h; rfl
      · cases hpp : parse_packages env.scanResults with
        | error e => rw [hpp] at h; cases h
        | ok pkgs =>
          rw [hpp] at h
          dsimp only at h
          split at h
          · cases h; rfl
          · split at h
            · cases h; rfl
            · cases hp : yes_no_prompt ans with
              | none => rw [hp] at h; cases h
              | some br =>
                obtain ⟨b, rest⟩ := br
                rw [hp] at h
                cases b with
                | true =>
                  obtain ⟨h1, _⟩ := yes_no_prompt_spec ans true rest hp
                  obtain ⟨a, ha, hya⟩ := h1 rfl
                  rw [hno a ha] at hya
                  cases hya
                | false => cases h; rfl

/-- C9.  No deletion without an affirmative confirmation: the empty
input line answers "no"; with `count = 0` an empty (default-no) answer
to the extra safety prompt ends the run with exit 0 and nothing
removed, whatever the filesystem holds; and any run whose stdin lines
contain no affirmative answer exits without removing any file. -/
theorem claim_C9_confirmation_gate :
    (∀ rest : List String, yes_no_prompt ("" :: rest) = some (false, rest)) ∧
    (∀ (env : Env) (ans : List String), main_model 0 env ("" :: ans) = .exit 0 []) ∧
    (∀ (count : Nat) (env : Env) (ans : List String) (code : Int)
      (removed : List String), (∀ a ∈ ans, isYes a = false) →
      main_model count env ans = .exit code removed → removed = []) := by
  refine ⟨fun rest => rfl, fun env ans => rfl, ?_⟩
  intro count env ans code removed hno h
  rw [main_model] at h
  by_cases hc : count = 0
  · rw [if_pos hc] at h
    cases hp : yes_no_prompt ans with
    | none => rw [hp] at h; cases h
    | some br =>
      obtain ⟨b, rest⟩ := br
      rw [hp] at h
      cases b with
      | true =>
        obtain ⟨_, hsub⟩ := yes_no_prompt_spec ans true rest hp
        exact main_step_no_removal count env rest code removed
          (fun a ha => hno a (hsub a ha)) h
      | false => cases h; rfl
  · rw [if_neg hc] at h
    exact main_step_no_removal count env ans code removed hno h

/-- C9 witness: a run with redundant packages whose only stdin line is
a refusal removes nothing. -/
theorem claim_C9_confirmation_gate_witness :
    yes_no_prompt [""] = some (false, []) ∧
    main_model 0 ⟨true, true, [("d", "foo-1.0-1-p2-x86_64.pisi")]⟩ [""] = .exit 0 [] ∧
    ((∀ a ∈ ["n"], isYes a = false) ∧ ([] : List String) = []) :=
  ⟨claim_C9_confirmation_gate.1 [],
    claim_C9_confirmation_gate.2.1 ⟨true, true, [("d", "foo-1.0-1-p2-x86_64.pisi")]⟩ [],
    by decide,
    claim_C9_confirmation_gate.2.2 1
      ⟨true, true, [("d", "foo-1.0-1-p2-x86_64.pisi"), ("d", "foo-2.0-1-p2-x86_64.pisi")]⟩
      ["n"] 0 [] (by decide) rfl⟩

/-- C10.  Extension stripping cuts at the FIRST occurrence of
`".pisi"`: for any filename `a ++ ".pisi" ++ b` with no earlier
occurrence in `a`, every parsed field is derived from `a` alone.  In
particular `foo.pisi-1.0-1-p2-x86_64.pisi` is reduced to `foo` — whose
`rsplit` then fails, aborting the parse — even though its
trailing-extension-stripped stem `foo.pisi-1.0-1-p2-x86_64` would have
split into five fields. -/
theorem claim_C10_first_extension_strip :
    (∀ a b : String, hasPat extPat a.data = false →
      stripExtension (a ++ ".pisi" ++ b) = a) ∧
    rsplitName "foo.pisi-1.0-1-p2-x86_64" =
      some ("foo.pisi", "1.0", "1", "p2", "x86_64") ∧
    parse_packages [("d", "foo.pisi-1.0-1-p2-x86_64.pisi")] =
      .error "foo.pisi-1.0-1-p2-x86_64.pisi" := by
  refine ⟨?_, rfl, rfl⟩
  intro a b h
  rw [stripExtension,
    show (a ++ ".pisi" ++ b).data = a.data ++ extPat ++ b.data from by
      rw [String.data_append, String.data_append]; rfl,
    takeUntilPat_extPat_append a.data b.data h]

/-- C10 witness: stripping `foo.pisi-1.0-1-p2-x86_64.pisi` keeps only
`foo`. -/
theorem claim_C10_first_extension_strip_witness :
    stripExtension ("foo" ++ ".pisi" ++ "-1.0-1-p2-x86_64.pisi") = "foo" :=
  claim_C10_first_extension_strip.1 "foo" "-1.0-1-p2-x86_64.pisi" (by decide)

end RepoCleaner
